import Mathlib

/-!
# Verification of the Vertical-Select column-selection and find/replace engines

Shallow embedding of the two find/replace implementations
(`src/unnamed/part_001`, a React component, called "P1" below, and
`src/src/components/FindReplace.tsx`, called "Tsx" below) and of the
column-selection geometry (`src/unnamed/part_000` / `src/js/app.js`,
called "P0" below).

JavaScript strings are modelled as `List Char`; `String.prototype`
operations (`substring`, `slice`, `split`, `indexOf`, `toUpperCase`,
`trim`, …) are modelled by the corresponding clamped `List` operations.
Case mapping uses `Char.toUpper`/`Char.toLower`, which agree with the
host on ASCII (the engines make no Unicode guarantees).
-/

namespace VerticalSelect

/-- `text.split('\n')`: split a character list at every newline.
Always returns at least one (possibly empty) piece, like the host `split`. -/
def splitNl : List Char → List (List Char)
  | [] => [[]]
  | c :: rest =>
    match splitNl rest with
    | [] => [[]]
    | s :: ss => if c = '\n' then [] :: s :: ss else (c :: s) :: ss

/-- `pieces.join('\n')`: interleave the pieces with single newlines. -/
def joinNl : List (List Char) → List Char
  | [] => []
  | [s] => s
  | s :: rest => s ++ '\n' :: joinNl rest

/-- `s.trim()`: strip whitespace from both ends. -/
def trim (l : List Char) : List Char :=
  ((l.dropWhile Char.isWhitespace).reverse.dropWhile Char.isWhitespace).reverse

/-- `s.substring(a, b)`: clamp both indices to `[0, length]` and swap them
when out of order, then take the characters in between. -/
def jsSubstring (l : List Char) (a b : Nat) : List Char :=
  let a' := min a l.length
  let b' := min b l.length
  (l.take (max a' b')).drop (min a' b')

/-- `arr.slice(0, e)` for a possibly negative end index `e`:
a negative `e` counts from the end of the array. -/
def jsSliceTo (l : List α) (e : Int) : List α :=
  if e < 0 then l.take ((l.length : Int) + e).toNat else l.take e.toNat

/-- Case folding used when the `i` regex flag is present (`caseSensitive`
off): compare characters lowercased.  Identity when case-sensitive. -/
def foldChar (caseSensitive : Bool) (c : Char) : Char :=
  if caseSensitive then c else c.toLower

/-- The regex word-character class `\w` = `[A-Za-z0-9_]` used by the `\b`
assertions that `wholeWord` wraps around the escaped pattern (P1). -/
def isWordChar (c : Char) : Bool :=
  c.isAlpha || c.isDigit || c = '_'

/-- Whether the character at index `i` (if any) is a word character. -/
def wordAt (text : List Char) (i : Nat) : Bool :=
  match text.get? i with
  | some c => isWordChar c
  | none => false

/-- The `\b` assertion holds at offset `p`: the word-ness of the characters
on the two sides of the position differs (out of range counts as non-word). -/
def boundaryAt (text : List Char) (p : Nat) : Bool :=
  (if p = 0 then false else wordAt text (p - 1)) != wordAt text p

/-- The (escaped, hence literal) pattern matches at offset `p` of `text`
under the case-sensitivity flag, and when `wholeWord` is set both ends of
the occurrence sit on `\b` boundaries (P1's effective pattern
`\bescaped\b`). -/
def occursAt (text pat : List Char) (cs ww : Bool) (p : Nat) : Bool :=
  (((text.drop p).take pat.length).map (foldChar cs) = pat.map (foldChar cs)) &&
    (!ww || (boundaryAt text p && boundaryAt text (p + pat.length)))

/-- The host regex engine's search for the next occurrence at or after
`pos`: the least matching offset, if any. -/
def findFrom (text pat : List Char) (cs ww : Bool) (pos : Nat) : Option Nat :=
  (List.range' pos (text.length + 1 - pos)).find? (fun p => occursAt text pat cs ww p)

/-- One global-regex scan loop (`while ((match = pattern.exec(text)) …)`)
for a literal non-empty pattern: repeatedly find the next occurrence and
resume after its end.  `fuel` bounds the iteration count; the callers
supply `text.length + 1`, which is always sufficient because the cursor
strictly increases. -/
def litSpansAux (text pat : List Char) (cs ww : Bool) : Nat → Nat → List (Nat × Nat)
  | 0, _ => []
  | fuel + 1, pos =>
    match findFrom text pat cs ww pos with
    | none => []
    | some p => (p, pat.length) :: litSpansAux text pat cs ww fuel (p + pat.length)

/-- All (start, length) spans produced by a global literal-pattern scan of
`text`.  The empty pattern never reaches this code path (both
implementations return early on an empty find string). -/
def litSpans (text pat : List Char) (cs ww : Bool) : List (Nat × Nat) :=
  if pat.isEmpty then [] else litSpansAux text pat cs ww (text.length + 1) 0

/-- P1's `SearchOptions` record (`src/unnamed/part_001`, lines 40-48).
The `contextFilter` field invokes the host regex engine, so it is carried
separately as an abstract predicate where it matters. -/
structure SearchOptions where
  caseSensitive : Bool := false
  wholeWord : Bool := false
  useRegex : Bool := false
  replaceFirst : Bool := false
  smartCase : Bool := true
  lineRange : Option (Int × Int) := none
deriving Repr, DecidableEq

/-- A `Match` record of P1 (`src/unnamed/part_001`, lines 50-56). -/
structure MatchP1 where
  index : Nat
  length : Nat
  text : List Char
  lineNumber : Nat
  context : List Char
deriving Repr, DecidableEq

/-- `searchText.lastIndexOf('\n', idx)`: the greatest offset `j ≤ idx`
holding a newline, or `-1`. -/
def lastNlLe (text : List Char) (idx : Nat) : Int :=
  (List.range (idx + 1)).foldl
    (fun acc j => if text.get? j = some '\n' then (j : Int) else acc) (-1)

/-- `searchText.indexOf('\n', idx)`: the least offset `j ≥ idx` holding a
newline (`none` models the host's `-1`). -/
def indexOfNlFrom (text : List Char) (idx : Nat) : Option Nat :=
  (List.range' idx (text.length - idx)).find? (fun j => text.get? j == some '\n')

/-- The context window P1 computes for a match at `idx` of length `mlen`
(`src/unnamed/part_001`, lines 150-155). -/
def contextP1 (text : List Char) (idx mlen : Nat) : List Char :=
  let lineStart : Int := lastNlLe text idx + 1
  let ctxEnd : Nat :=
    match indexOfNlFrom text idx with
    | none => min text.length (idx + mlen + 50)
    | some le => min (le + 50) text.length
  jsSubstring text (lineStart - 50).toNat ctxEnd

/-- The body of P1's `findMatches` scan loop for one raw span: compute the
1-indexed line number (`substring(0, index).split('\n').length`) and the
context window, apply the `lineRange` and `contextFilter` guards
(`continue` when either rejects), and otherwise push the `Match` record
(`src/unnamed/part_001`, lines 147-178). -/
def enrichP1 (text : List Char) (lr : Option (Int × Int))
    (cf : Option (List Char → Bool)) (sp : Nat × Nat) : Option MatchP1 :=
  let lineNumber := (text.take sp.1).count '\n' + 1
  let context := contextP1 text sp.1 sp.2
  let lrOk : Bool :=
    match lr with
    | some r => decide (r.1 ≤ (lineNumber : Int) ∧ (lineNumber : Int) ≤ r.2)
    | none => true
  let cfOk : Bool :=
    match cf with
    | some f => f context
    | none => true
  if lrOk && cfOk then
    some { index := sp.1, length := sp.2, text := (text.drop sp.1).take sp.2,
           lineNumber := lineNumber, context := trim context }
  else none

/-- P1's `findMatches` on the literal (non-regex) path
(`src/unnamed/part_001`, lines 123-193): the find string is
metacharacter-escaped — hence matched literally — optionally wrapped in
`\b` assertions (`wholeWord`) and compiled with the `g` flag plus `i`
unless `caseSensitive`; the global scan's spans are enriched and filtered
by `lineRange` / `contextFilter`.  An empty find string returns no
matches (the component returns early). -/
def scanP1Matches (text findText : List Char) (cs ww : Bool)
    (lr : Option (Int × Int)) (cf : Option (List Char → Bool)) : List MatchP1 :=
  if findText.isEmpty then []
  else (litSpans text findText cs ww).filterMap (enrichP1 text lr cf)

/-- `s.toUpperCase()` (ASCII). -/
def mapUpper (l : List Char) : List Char := l.map Char.toUpper

/-- `s.toLowerCase()` (ASCII). -/
def mapLower (l : List Char) : List Char := l.map Char.toLower

/-- `s.charAt(0).toUpperCase() + s.slice(1).toLowerCase()`. -/
def capFirstLowerRest : List Char → List Char
  | [] => []
  | c :: cs => c.toUpper :: mapLower cs

/-- P1's `preserveCase` (`src/unnamed/part_001`, lines 222-233).  The
`smartCase` flag is read from the component's options; it is passed here
explicitly.  Note the third branch tests only the first character
(`original[0] === original[0].toUpperCase()`). -/
def preserveCaseP1 (smartCase : Bool) (original replacement : List Char) : List Char :=
  if !smartCase then replacement
  else if original = mapUpper original then mapUpper replacement
  else if original = mapLower original then mapLower replacement
  else if original.take 1 = mapUpper (original.take 1) then capFirstLowerRest replacement
  else replacement

/-- Tsx's `replaceWithCasePreservation`
(`src/src/components/FindReplace.tsx`, lines 170-182).  Its third branch
additionally requires the rest of the original to be lowercase. -/
def replaceWithCasePreservation (preserveCase : Bool)
    (original replacement : List Char) : List Char :=
  if !preserveCase then replacement
  else if original = mapUpper original then mapUpper replacement
  else if original = mapLower original then mapLower replacement
  else if original.take 1 = mapUpper (original.take 1) ∧
      original.drop 1 = mapLower (original.drop 1) then capFirstLowerRest replacement
  else replacement

/-- A replacement span: replace the characters in `[s, e)` by `r`. -/
structure Span where
  s : Nat
  e : Nat
  r : List Char

/-- One splice step, `result.substring(0, start) + repl + result.substring(end)`. -/
def spliceOne (text : List Char) (sp : Span) : List Char :=
  text.take sp.s ++ sp.r ++ text.drop sp.e

/-- Simultaneous substitution of a start-ascending, non-overlapping span
list: each span's offsets index the original text. -/
def simulSpans (text : List Char) : List Span → List Char
  | [] => text
  | sp :: rest => text.take sp.s ++ sp.r ++ (simulSpans text rest).drop sp.e

/-- Descending-key insertion sort modelling `arr.sort((a, b) => keyB - keyA)`. -/
def insertDescBy (key : α → Nat) (x : α) : List α → List α
  | [] => [x]
  | y :: ys => if key y ≤ key x then x :: y :: ys else y :: insertDescBy key x ys

/-- `[...arr].sort((a, b) => key(b) - key(a))`: sort descending by `key`. -/
def sortDescBy (key : α → Nat) : List α → List α
  | [] => []
  | x :: xs => insertDescBy key x (sortDescBy key xs)

/-- The replacement P1 computes for one match:
`options.smartCase ? preserveCase(match.text, replaceText) : replaceText`. -/
def replacementP1 (smartCase : Bool) (m : MatchP1) (replaceText : List Char) : List Char :=
  if smartCase then preserveCaseP1 smartCase m.text replaceText else replaceText

/-- The span one P1 splice step replaces:
`result.substring(0, match.index) + replacement + result.substring(match.index + match.length)`. -/
def toSpanP1 (smartCase : Bool) (replaceText : List Char) (m : MatchP1) : Span :=
  ⟨m.index, m.index + m.length, replacementP1 smartCase m replaceText⟩

/-- P1's `performReplace` (`src/unnamed/part_001`, lines 235-257) on a
working match set `ms` (the component passes either all matches or the
interactively selected subset): with `replaceFirst` splice only the first
match of the set, otherwise sort the set by descending `index`
(`sort((a, b) => b.index - a.index)`) and splice each in turn. -/
def performReplaceP1 (text : List Char) (ms : List MatchP1)
    (replaceText : List Char) (smartCase replaceFirst : Bool) : List Char :=
  if replaceFirst then
    match ms with
    | [] => text
    | m :: _ => spliceOne text (toSpanP1 smartCase replaceText m)
  else
    (sortDescBy (fun m => m.index) ms).foldl
      (fun result m => spliceOne result (toSpanP1 smartCase replaceText m)) text

/-- A `Match` record of Tsx (`src/src/components/FindReplace.tsx`,
lines 31-37); `stop` models the source's `end` field. -/
structure MatchTsx where
  start : Nat
  stop : Nat
  text : List Char
  line : Nat
  context : List Char
deriving Repr, DecidableEq

/-- The span one Tsx splice step replaces:
`newText.slice(0, match.start) + replacement + newText.slice(match.end)`. -/
def toSpanTsx (preserveCase : Bool) (replaceText : List Char) (m : MatchTsx) : Span :=
  ⟨m.start, m.stop, replaceWithCasePreservation preserveCase m.text replaceText⟩

/-- Tsx's `performReplace` (`src/src/components/FindReplace.tsx`,
lines 185-225) on the working match set `ms` (`matches` when replacing
all, else the single current match): sort descending by `start`
(`sort((a, b) => b.start - a.start)`) and splice each in turn. -/
def performReplaceTsx (text : List Char) (ms : List MatchTsx)
    (replaceText : List Char) (preserveCase : Bool) : List Char :=
  (sortDescBy (fun m => m.start) ms).foldl
    (fun newText m => spliceOne newText (toSpanTsx preserveCase replaceText m)) text

/-- The character class `[a-zA-Z0-9]` Tsx's `wholeWord` check tests on the
neighbouring characters (note: unlike `\w`, no underscore). -/
def isAlnumJs (c : Char) : Bool := c.isAlpha || c.isDigit

/-- Whether `line[i]` exists and is in `[a-zA-Z0-9]`; an out-of-range
access yields `undefined`, coalesced to `""`, which fails the test. -/
def alnumAt (line : List Char) (i : Nat) : Bool :=
  match line.get? i with
  | some c => isAlnumJs c
  | none => false

/-- `searchText.indexOf(searchPattern, i)`: least occurrence offset `≥ i`
(`none` models `-1`). -/
def indexOfFrom (searchText pat : List Char) (i : Nat) : Option Nat :=
  (List.range' i (searchText.length + 1 - i)).find?
    (fun p => pat.isPrefixOf (searchText.drop p))

/-- The context snippet Tsx builds around a match in one line
(`src/src/components/FindReplace.tsx`, lines 146-148 and 155). -/
def tsxContext (line : List Char) (idx plen : Nat) : List Char :=
  let contextStart := idx - 20
  let contextEnd := min line.length (idx + plen + 20)
  let context := (line.take contextEnd).drop contextStart
  if 0 < contextStart then '.' :: '.' :: '.' :: context
  else context ++ (if contextEnd < line.length then ['.', '.', '.'] else [])

/-- Tsx's literal per-line scan loop
(`src/src/components/FindReplace.tsx`, lines 134-159):
`while ((index = searchText.indexOf(searchPattern, index)) !== -1)`,
with the `wholeWord` neighbour test (`continue` with `index += 1`), a
match push, and `index += 1` — the cursor advances by one even after a
successful match.  `fuel` bounds the iterations; callers pass
`line.length + 1`, always sufficient since the cursor strictly
increases. -/
def tsxLineScanAux (line searchText pat : List Char) (ww : Bool)
    (g lineIdx : Nat) : Nat → Nat → List MatchTsx
  | 0, _ => []
  | fuel + 1, i =>
    match indexOfFrom searchText pat i with
    | none => []
    | some p =>
      if ww && ((decide (0 < p) && alnumAt line (p - 1)) || alnumAt line (p + pat.length)) then
        tsxLineScanAux line searchText pat ww g lineIdx fuel (p + 1)
      else
        { start := g + p, stop := g + p + pat.length,
          text := (line.drop p).take pat.length, line := lineIdx + 1,
          context := tsxContext line p pat.length }
          :: tsxLineScanAux line searchText pat ww g lineIdx fuel (p + 1)

/-- Tsx's `lines.forEach` scan (`src/src/components/FindReplace.tsx`,
lines 90-163): a line whose 0-based index falls outside the `lineRange`
bounds is skipped entirely (but still advances `globalIndex` by
`line.length + 1`); otherwise the line is scanned with the lowercased
text and pattern when case-insensitive. -/
def tsxScanLines (findText : List Char) (cs ww : Bool) (lr : Option (Int × Int)) :
    List (List Char) → Nat → Nat → List MatchTsx
  | [], _, _ => []
  | line :: rest, lineIdx, g =>
    let skip : Bool :=
      match lr with
      | some r => decide ((lineIdx : Int) < r.1 ∨ r.2 < (lineIdx : Int))
      | none => false
    (if skip then []
     else
       let searchText := if cs then line else mapLower line
       let pat := if cs then findText else mapLower findText
       tsxLineScanAux line searchText pat ww g lineIdx (line.length + 1) 0)
      ++ tsxScanLines findText cs ww lr rest (lineIdx + 1) (g + line.length + 1)

/-- Tsx's `findMatches` on the literal (non-regex) path
(`src/src/components/FindReplace.tsx`, lines 80-167): split the text into
lines and scan each, accumulating a global character offset; an empty
find string returns no matches (the component returns early). -/
def tsxFindMatches (text findText : List Char) (cs ww : Bool)
    (lr : Option (Int × Int)) : List MatchTsx :=
  if findText.isEmpty then []
  else tsxScanLines findText cs ww lr (splitNl text) 0 0

/-- `text.replace(pattern, repl)` for a global literal pattern: copy the
text, substituting `repl` for each scanned span. -/
def buildReplaced (text repl : List Char) : List (Nat × Nat) → Nat → List Char
  | [], pos => text.drop pos
  | sp :: rest, pos =>
    ((text.drop pos).take (sp.1 - pos)) ++ repl ++ buildReplaced text repl rest (sp.1 + sp.2)

/-- Global literal replace-all under the case/word flags. -/
def replaceAllLit (text pat repl : List Char) (cs ww : Bool) : List Char :=
  buildReplaced text repl (litSpans text pat cs ww) 0

/-- `line.split('->')`: split at each (leftmost, non-overlapping)
occurrence of the two-character separator. -/
def splitArrow : List Char → List (List Char)
  | [] => [[]]
  | '-' :: '>' :: rest => [] :: splitArrow rest
  | c :: rest =>
    match splitArrow rest with
    | [] => [[c]]
    | s :: ss => (c :: s) :: ss

/-- A P1 `ReplaceOperation` history entry (`src/unnamed/part_001`,
lines 31-38), keeping the fields the claims are about; `id`/`timestamp`
are host-clock values with no bearing on any claim. -/
structure OpP1 where
  find : List Char
  replace : List Char
  matchCount : Nat
  options : SearchOptions
deriving Repr, DecidableEq

/-- P1's `performBatchReplace` (`src/unnamed/part_001`, lines 274-307):
split the batch text-area blob into lines, keep the non-blank ones, parse
each as `find -> replace` (skipping lines without exactly one `->` and
lines with an empty trimmed find), and apply each parsed rule as an
escaped — hence literal — global (`'g'` only, so case-sensitive) regex
replace against the running text, pushing one operation record per
applied rule.  The component's `options` record is captured only inside
the operation snapshots. -/
def performBatchReplaceP1 (text blob : List Char) (opts : SearchOptions) :
    List Char × List OpP1 :=
  let lines := (splitNl blob).filter (fun line => !(trim line).isEmpty)
  lines.foldl
    (fun acc line =>
      match (splitArrow line).map trim with
      | [f, r] =>
        if f.isEmpty then acc
        else
          let cnt := (litSpans acc.1 f true false).length
          (replaceAllLit acc.1 f r true false, acc.2 ++ [⟨f, r, cnt, opts⟩])
      | _ => acc)
    (text, [])

/-- P1's single-replace history update
(`setHistory(prev => [operation, ...prev.slice(0, 19)])`,
`src/unnamed/part_001`, line 268). -/
def historyAfterReplaceP1 (op : OpP1) (prev : List OpP1) : List OpP1 :=
  op :: prev.take 19

/-- P1's batch history update
(`setHistory(prev => [...operations, ...prev.slice(0, 20 - operations.length)])`,
`src/unnamed/part_001`, line 304); the slice end may be negative. -/
def historyAfterBatchP1 (ops : List OpP1) (prev : List OpP1) : List OpP1 :=
  ops ++ jsSliceTo prev (20 - (ops.length : Int))

/-- One history-mutating event of the P1 session: a single replace
appends one operation, a batch appends one operation per applied rule. -/
inductive HistEvent where
  | single (op : OpP1)
  | batch (ops : List OpP1)

/-- Apply one history event the way the component's `setHistory` calls do. -/
def applyHistEvent (prev : List OpP1) : HistEvent → List OpP1
  | .single op => historyAfterReplaceP1 op prev
  | .batch ops => historyAfterBatchP1 ops prev

/-- A Tsx `BatchReplacement` rule (`src/src/components/FindReplace.tsx`,
lines 39-43). -/
structure BatchRuleTsx where
  find : List Char
  replace : List Char
  enabled : Bool
deriving Repr, DecidableEq

/-- One rule application inside Tsx's `performBatchReplace`
(`src/src/components/FindReplace.tsx`, lines 234-244): count the global
matches of the rule's find pattern (compiled from the raw find string —
modelled for metacharacter-free finds, on which the host regex matches
literally — wrapped in `\b` when `wholeWord`, case-insensitive unless
`caseSensitive`), and if there are any, replace them all and add the
count to the running total. -/
def tsxApplyRule (cs ww : Bool) (acc : List Char × Nat) (item : BatchRuleTsx) :
    List Char × Nat :=
  let spans := litSpans acc.1 item.find cs ww
  if spans.isEmpty then acc
  else (buildReplaced acc.1 item.replace spans 0, acc.2 + spans.length)

/-- Tsx's `performBatchReplace` (`src/src/components/FindReplace.tsx`,
lines 228-253): filter to the enabled rules with a non-empty find and
apply each in order against the running text. -/
def performBatchReplaceTsx (text : List Char) (rules : List BatchRuleTsx)
    (cs ww : Bool) : List Char × Nat :=
  (rules.filter (fun item => item.enabled && !item.find.isEmpty)).foldl
    (tsxApplyRule cs ww) (text, 0)

/-- Modelled from the claim's wording, for comparison with
`performBatchReplaceTsx`: rules are applied in list order, each enabled
non-empty rule performing one full scan-and-replace-all pass against the
text produced by the previous rule; disabled and empty-find rules are
skipped; the total is the sum of the per-rule counts. -/
def batchSpecTsx (cs ww : Bool) : List Char → List BatchRuleTsx → List Char × Nat
  | text, [] => (text, 0)
  | text, r :: rs =>
    if r.enabled && !r.find.isEmpty then
      let step := tsxApplyRule cs ww (text, 0) r
      let rest := batchSpecTsx cs ww step.1 rs
      (rest.1, step.2 + rest.2)
    else batchSpecTsx cs ww text rs

/-- The host regex `exec` (global flag) for the pattern `x*` at cursor
`li`: when the cursor is within the text the pattern always matches at
the cursor, consuming the (possibly empty) run of `x`s there, and
`lastIndex` becomes the match end; past the end, `exec` returns null. -/
def execStarX (line : List Char) (li : Nat) : Option (Nat × Nat) :=
  if li ≤ line.length then
    some (li, ((line.drop li).takeWhile (fun c => c = 'x')).length)
  else none

/-- Tsx's regex-branch scan loop
(`while ((match = regex.exec(line)) !== null)`,
`src/src/components/FindReplace.tsx`, lines 104-130) for the pattern
`x*`, with NO zero-length-match guard: after each match the cursor is the
match end, so a zero-length match leaves it unchanged.  `fuel` counts the
iterations performed; the loop completes within `fuel` iterations iff the
result is `some`. -/
def tsxRegexLoopFuel (line : List Char) : Nat → Nat → Option (List (Nat × Nat))
  | 0, _ => none
  | fuel + 1, li =>
    match execStarX line li with
    | none => some []
    | some sp =>
      match tsxRegexLoopFuel line fuel (sp.1 + sp.2) with
      | none => none
      | some rest => some (sp :: rest)

/-- P1's regex-branch scan loop (`src/unnamed/part_001`, lines 147-184,
filters inactive) for the pattern `x*`, WITH the zero-length-match guard
`if (match[0].length === 0) pattern.lastIndex++`. -/
def p1RegexLoopFuel (line : List Char) : Nat → Nat → Option (List (Nat × Nat))
  | 0, _ => none
  | fuel + 1, li =>
    match execStarX line li with
    | none => some []
    | some sp =>
      match p1RegexLoopFuel line fuel
          (if sp.2 = 0 then sp.1 + sp.2 + 1 else sp.1 + sp.2) with
      | none => none
      | some rest => some (sp :: rest)

/-- P0's column extraction loop (`src/unnamed/part_000`, lines 270-290 /
`src/js/app.js`, lines 213-235): for each row of the normalized bounds,
push the empty string when the row is past the available lines or the
clipped column range is empty, else the line's slice; join with
newlines. -/
def extractColumns (text : List Char) (minRow maxRow minCol maxCol : Nat) : List Char :=
  let lines := splitNl text
  joinNl ((List.range (maxRow + 1 - minRow)).map (fun i =>
    let r := minRow + i
    if r < lines.length then
      let line := lines.getD r []
      let startCol := min minCol line.length
      let endCol := min (maxCol + 1) line.length
      if startCol < endCol then (line.take endCol).drop startCol else []
    else []))

/-- P0's `getSelectedText` (`src/unnamed/part_000`, lines 263-291):
normalize the drag rectangle's corners into bounds, then extract. -/
def getSelectedTextP0 (text : List Char) (startX startY endX endY : Nat) : List Char :=
  extractColumns text (min startY endY) (max startY endY) (min startX endX) (max startX endX)

/-- Modelled from the claim's wording, for comparison with
`extractColumns`: the entry for row `r` is empty when `r` is at or past
the number of lines or when the clipped column range is empty, and
otherwise is line `r` sliced from `min(minCol, |line|)` to
`min(maxCol+1, |line|)`. -/
def rowEntrySpec (text : List Char) (minCol maxCol r : Nat) : List Char :=
  let lines := splitNl text
  if lines.length ≤ r then []
  else
    let line := lines.getD r []
    if min (maxCol + 1) line.length ≤ min minCol line.length then []
    else (line.take (min (maxCol + 1) line.length)).drop (min minCol line.length)

/-- A P0 grid position (`src/unnamed/part_000`, lines 17-20). -/
structure PositionP0 where
  row : Nat
  col : Nat
deriving Repr, DecidableEq

/-- P0's `getPosition` / `getPositionFromEvent` (`src/unnamed/part_000`,
lines 85-107 / `src/js/app.js`, lines 453-481): map the pointer into
content coordinates, divide by the glyph metrics, floor, clamp at zero,
and reject rows past the last line.  Host numbers are modelled as
rationals. -/
def getPositionP0 (text : List Char)
    (clientX rectLeft paddingLeft scrollLeft
     clientY rectTop paddingTop scrollTop charWidth lineHeight : ℚ) : Option PositionP0 :=
  let x := clientX - rectLeft - paddingLeft + scrollLeft
  let y := clientY - rectTop - paddingTop + scrollTop
  let col : Int := max 0 ⌊x / charWidth⌋
  let row : Int := max 0 ⌊y / lineHeight⌋
  let lines := splitNl text
  if (lines.length : Int) ≤ row ∧ 0 < lines.length then none
  else some ⟨row.toNat, col.toNat⟩

/-- Modelled from the claim's wording, for comparison with
`replaceWithCasePreservation`: all-uppercase original uppercases the
replacement; all-lowercase lowercases it; Capitalized (first character
uppercase, rest lowercase) capitalizes it; any other mixed case leaves it
verbatim. -/
def preserveCaseSpec (original replacement : List Char) : List Char :=
  if mapUpper original = original then mapUpper replacement
  else if mapLower original = original then mapLower replacement
  else
    match original with
    | [] => replacement
    | c :: cs =>
      if c.toUpper = c ∧ mapLower cs = cs then capFirstLowerRest replacement
      else replacement

/-- The number of operation records one history event appends. -/
def histEventSize : HistEvent → Nat
  | .single _ => 1
  | .batch ops => ops.length

/-- The 21-line batch blob `"a->b\n…\na->b"` used to exhibit the history
overflow. -/
def blob21 : List Char := joinNl (List.replicate 21 "a->b".toList)

theorem splitNl_ne_nil (l : List Char) : splitNl l ≠ [] := by
  cases l with
  | nil => simp [splitNl]
  | cons c rest =>
    simp only [splitNl]
    cases splitNl rest with
    | nil => simp
    | cons s ss =>
      dsimp only
      split <;> simp

theorem length_splitNl_pos (l : List Char) : 0 < (splitNl l).length :=
  List.length_pos.mpr (splitNl_ne_nil l)

theorem not_mem_of_mem_splitNl {l : List Char} {s : List Char}
    (hs : s ∈ splitNl l) : '\n' ∉ s := by
  induction l generalizing s with
  | nil => simp [splitNl] at hs; simp [hs]
  | cons c rest ih =>
    simp only [splitNl] at hs
    cases h : splitNl rest with
    | nil => exact absurd h (splitNl_ne_nil rest)
    | cons t ts =>
      rw [h] at hs
      by_cases hc : c = '\n'
      · simp [hc] at hs
        rcases hs with hs | hs | hs
        · simp [hs]
        · exact ih (h ▸ (by simp [hs]))
        · exact ih (h ▸ (by simp [hs]))
      · simp [hc] at hs
        rcases hs with hs | hs
        · subst hs
          intro hm
          rcases List.mem_cons.mp hm with hm | hm
          · exact hc hm.symm
          · exact ih (h ▸ (by simp)) hm
        · exact ih (h ▸ (by simp [hs]))

theorem joinNl_splitNl (l : List Char) : joinNl (splitNl l) = l := by
  induction l with
  | nil => rfl
  | cons c rest ih =>
    simp only [splitNl]
    cases h : splitNl rest with
    | nil => exact absurd h (splitNl_ne_nil rest)
    | cons s ss =>
      rw [h] at ih
      by_cases hc : c = '\n'
      · subst hc
        simp only [if_pos rfl, joinNl]
        cases ss <;> simp_all [joinNl]
      · simp only [if_neg hc]
        cases ss with
        | nil => simpa [joinNl] using ih
        | cons t ts => simpa [joinNl] using ih

theorem splitNl_joinNl (ls : List (List Char)) (hne : ls ≠ [])
    (hnl : ∀ s ∈ ls, '\n' ∉ s) : splitNl (joinNl ls) = ls := by
  induction ls with
  | nil => exact absurd rfl hne
  | cons s rest ih =>
    cases rest with
    | nil =>
      simp only [joinNl]
      have hs : '\n' ∉ s := hnl s (by simp)
      clear ih hne hnl
      induction s with
      | nil => rfl
      | cons c cs ihs =>
        have hc : c ≠ '\n' := fun h => hs (h ▸ List.mem_cons_self c cs)
        have hcs : '\n' ∉ cs := fun h => hs (List.mem_cons_of_mem c h)
        simp only [splitNl, ihs hcs, if_neg hc]
    | cons t ts =>
      have hrec : splitNl (joinNl (t :: ts)) = t :: ts :=
        ih (by simp) (fun u hu => hnl u (List.mem_cons_of_mem s hu))
      have hs : '\n' ∉ s := hnl s (by simp)
      show splitNl (s ++ '\n' :: joinNl (t :: ts)) = s :: t :: ts
      clear ih hne hnl
      induction s with
      | nil =>
        simp only [List.nil_append, splitNl, hrec]
        cases t <;> simp
      | cons c cs ihs =>
        have hc : c ≠ '\n' := fun h => hs (h ▸ List.mem_cons_self c cs)
        have hcs : '\n' ∉ cs := fun h => hs (List.mem_cons_of_mem c h)
        have := ihs hcs
        simp only [List.cons_append, splitNl, List.append_eq, this, if_neg hc]

theorem length_joinNl (ls : List (List Char)) (hne : ls ≠ []) :
    (joinNl ls).length = (ls.map List.length).sum + ls.length - 1 := by
  induction ls with
  | nil => exact absurd rfl hne
  | cons s rest ih =>
    cases rest with
    | nil => simp [joinNl]
    | cons t ts =>
      have := ih (by simp)
      simp only [joinNl, List.length_append, List.length_cons, this]
      simp only [List.map_cons, List.sum_cons, List.length_cons]
      omega

theorem findFrom_some {text pat : List Char} {cs ww : Bool} {pos p : Nat}
    (h : findFrom text pat cs ww pos = some p) :
    pos ≤ p ∧ p + pat.length ≤ text.length := by
  have hmem := List.mem_of_find?_eq_some h
  have hp := List.find?_some h
  have hrange := List.mem_range'_1.mp hmem
  refine ⟨hrange.1, ?_⟩
  simp only [occursAt, Bool.and_eq_true, decide_eq_true_eq] at hp
  have hlen := congrArg List.length hp.1
  simp only [List.length_map, List.length_take, List.length_drop] at hlen
  omega

theorem litSpansAux_sound (text pat : List Char) (cs ww : Bool) :
    ∀ fuel pos, ∀ sp ∈ litSpansAux text pat cs ww fuel pos,
      pos ≤ sp.1 ∧ sp.2 = pat.length ∧ sp.1 + pat.length ≤ text.length := by
  intro fuel
  induction fuel with
  | zero => intro pos sp hsp; simp [litSpansAux] at hsp
  | succ fuel ih =>
    intro pos sp hsp
    simp only [litSpansAux] at hsp
    cases hf : findFrom text pat cs ww pos with
    | none => rw [hf] at hsp; simp at hsp
    | some p =>
      rw [hf] at hsp
      obtain ⟨hpos, hbound⟩ := findFrom_some hf
      rcases List.mem_cons.mp hsp with h | h
      · subst h; exact ⟨hpos, rfl, hbound⟩
      · have := ih (p + pat.length) sp h
        exact ⟨by omega, this.2.1, this.2.2⟩

theorem litSpansAux_pairwise (text pat : List Char) (cs ww : Bool)
    (hpat : 0 < pat.length) :
    ∀ fuel pos, (litSpansAux text pat cs ww fuel pos).Pairwise
      (fun a b => a.1 + a.2 ≤ b.1 ∧ a.1 < b.1) := by
  intro fuel
  induction fuel with
  | zero => intro pos; simp [litSpansAux]
  | succ fuel ih =>
    intro pos
    simp only [litSpansAux]
    cases hf : findFrom text pat cs ww pos with
    | none => simp
    | some p =>
      refine List.Pairwise.cons ?_ (ih (p + pat.length))
      intro b hb
      have := litSpansAux_sound text pat cs ww fuel (p + pat.length) b hb
      exact ⟨by omega, by omega⟩

theorem litSpans_sound (text pat : List Char) (cs ww : Bool) :
    ∀ sp ∈ litSpans text pat cs ww,
      sp.2 = pat.length ∧ sp.1 + pat.length ≤ text.length := by
  intro sp hsp
  simp only [litSpans] at hsp
  split at hsp
  · simp at hsp
  · exact (litSpansAux_sound text pat cs ww _ 0 sp hsp).2

theorem litSpans_pairwise (text pat : List Char) (cs ww : Bool)
    (hpat : 0 < pat.length) :
    (litSpans text pat cs ww).Pairwise (fun a b => a.1 + a.2 ≤ b.1 ∧ a.1 < b.1) := by
  simp only [litSpans]
  split
  · simp
  · exact litSpansAux_pairwise text pat cs ww hpat _ 0

theorem enrichP1_some {text : List Char} {lr : Option (Int × Int)}
    {cf : Option (List Char → Bool)} {sp : Nat × Nat} {m : MatchP1}
    (h : enrichP1 text lr cf sp = some m) :
    m.index = sp.1 ∧ m.length = sp.2 := by
  simp only [enrichP1] at h
  split at h
  · exact ⟨(Option.some_inj.mp h ▸ rfl), (Option.some_inj.mp h ▸ rfl)⟩
  · exact absurd h (by simp)

theorem scanP1Matches_sound (text findText : List Char) (cs ww : Bool)
    (lr : Option (Int × Int)) (cf : Option (List Char → Bool)) :
    ∀ m ∈ scanP1Matches text findText cs ww lr cf,
      m.length = findText.length ∧ m.index + findText.length ≤ text.length := by
  intro m hm
  simp only [scanP1Matches] at hm
  split at hm
  · simp at hm
  · obtain ⟨sp, hsp, he⟩ := List.mem_filterMap.mp hm
    obtain ⟨hidx, hlen⟩ := enrichP1_some he
    obtain ⟨hl, hb⟩ := litSpans_sound text findText cs ww sp hsp
    exact ⟨by omega, by omega⟩

theorem scanP1Matches_pairwise (text findText : List Char) (cs ww : Bool)
    (lr : Option (Int × Int)) (cf : Option (List Char → Bool))
    (hpat : 0 < findText.length) :
    (scanP1Matches text findText cs ww lr cf).Pairwise
      (fun a b => a.index + a.length ≤ b.index ∧ a.index < b.index) := by
  simp only [scanP1Matches]
  split
  · simp
  · refine List.Pairwise.filterMap (enrichP1 text lr cf) ?_
      (litSpans_pairwise text findText cs ww hpat)
    intro a b hab x hx y hy
    obtain ⟨hxi, hxl⟩ := enrichP1_some hx
    obtain ⟨hyi, _⟩ := enrichP1_some hy
    exact ⟨by omega, by omega⟩

theorem insertDescBy_of_lt (key : α → Nat) (x : α) (l : List α)
    (h : ∀ y ∈ l, key x < key y) : insertDescBy key x l = l ++ [x] := by
  induction l with
  | nil => rfl
  | cons y ys ih =>
    have hy := h y (by simp)
    have hn : ¬ (key y ≤ key x) := by omega
    simp only [insertDescBy, if_neg hn, List.cons_append]
    rw [ih (fun z hz => h z (by simp [hz]))]

theorem sortDescBy_of_ascending (key : α → Nat) (l : List α)
    (h : l.Pairwise (fun a b => key a < key b)) : sortDescBy key l = l.reverse := by
  induction l with
  | nil => rfl
  | cons x xs ih =>
    rw [List.pairwise_cons] at h
    simp only [sortDescBy, ih h.2, List.reverse_cons]
    exact insertDescBy_of_lt key x xs.reverse (fun y hy => h.1 y (List.mem_reverse.mp hy))

theorem take_simulSpans (text : List Char) (l : List Span) (k : Nat)
    (h : ∀ sp ∈ l, k ≤ sp.s ∧ sp.s ≤ text.length) :
    (simulSpans text l).take k = text.take k := by
  cases l with
  | nil => rfl
  | cons sp rest =>
    obtain ⟨hk, hs⟩ := h sp (by simp)
    have hlen : (text.take sp.s).length = sp.s := by
      simp [List.length_take]; omega
    simp only [simulSpans, List.append_assoc]
    rw [List.take_append_of_le_length (by omega), List.take_take, min_eq_left hk]

theorem foldl_spliceOne_reverse (text : List Char) (l : List Span)
    (hord : l.Pairwise (fun a b => a.e ≤ b.s))
    (hse : ∀ sp ∈ l, sp.s ≤ sp.e)
    (hb : ∀ sp ∈ l, sp.e ≤ text.length) :
    List.foldl spliceOne text l.reverse = simulSpans text l := by
  induction l with
  | nil => rfl
  | cons sp rest ih =>
    rw [List.pairwise_cons] at hord
    have hrec : List.foldl spliceOne text rest.reverse = simulSpans text rest :=
      ih hord.2 (fun x hx => hse x (by simp [hx])) (fun x hx => hb x (by simp [hx]))
    have hsp_se := hse sp (by simp)
    have hsp_b := hb sp (by simp)
    rw [List.reverse_cons, List.foldl_append, hrec]
    show spliceOne (simulSpans text rest) sp = _
    have htake : (simulSpans text rest).take sp.s = text.take sp.s :=
      take_simulSpans text rest sp.s
        (fun x hx => ⟨le_trans hsp_se (hord.1 x hx),
          le_trans (hse x (by simp [hx])) (hb x (by simp [hx]))⟩)
    simp only [spliceOne, simulSpans, htake]

theorem performReplaceP1_eq_simulSpans (text : List Char) (ms : List MatchP1)
    (replaceText : List Char) (smartCase : Bool)
    (hord : ms.Pairwise (fun a b => a.index + a.length ≤ b.index ∧ a.index < b.index))
    (hb : ∀ m ∈ ms, m.index + m.length ≤ text.length) :
    performReplaceP1 text ms replaceText smartCase false
      = simulSpans text (ms.map (toSpanP1 smartCase replaceText)) := by
  simp only [performReplaceP1, if_neg (Bool.false_ne_true)]
  rw [sortDescBy_of_ascending _ _ (hord.imp (fun h => h.2))]
  have hfm : ∀ init, ms.reverse.foldl
      (fun result m => spliceOne result (toSpanP1 smartCase replaceText m)) init
      = (ms.reverse.map (toSpanP1 smartCase replaceText)).foldl spliceOne init := by
    intro init; rw [List.foldl_map]
  rw [hfm, List.map_reverse]
  exact foldl_spliceOne_reverse text _
    ((List.pairwise_map.mpr (hord.imp (fun h => h.1))))
    (by intro sp hsp
        obtain ⟨m, _, rfl⟩ := List.mem_map.mp hsp
        simp [toSpanP1])
    (by intro sp hsp
        obtain ⟨m, hm, rfl⟩ := List.mem_map.mp hsp
        simpa [toSpanP1] using hb m hm)

theorem performReplaceTsx_eq_simulSpans (text : List Char) (ms : List MatchTsx)
    (replaceText : List Char) (pc : Bool)
    (hord : ms.Pairwise (fun a b => a.stop ≤ b.start ∧ a.start < b.start))
    (hse : ∀ m ∈ ms, m.start ≤ m.stop)
    (hb : ∀ m ∈ ms, m.stop ≤ text.length) :
    performReplaceTsx text ms replaceText pc
      = simulSpans text (ms.map (toSpanTsx pc replaceText)) := by
  simp only [performReplaceTsx]
  rw [sortDescBy_of_ascending _ _ (hord.imp (fun h => h.2))]
  have hfm : ∀ init, ms.reverse.foldl
      (fun newText m => spliceOne newText (toSpanTsx pc replaceText m)) init
      = (ms.reverse.map (toSpanTsx pc replaceText)).foldl spliceOne init := by
    intro init; rw [List.foldl_map]
  rw [hfm, List.map_reverse]
  exact foldl_spliceOne_reverse text _
    ((List.pairwise_map.mpr (hord.imp (fun h => h.1))))
    (by intro sp hsp
        obtain ⟨m, hm, rfl⟩ := List.mem_map.mp hsp
        simpa [toSpanTsx] using hse m hm)
    (by intro sp hsp
        obtain ⟨m, hm, rfl⟩ := List.mem_map.mp hsp
        simpa [toSpanTsx] using hb m hm)

theorem indexOfFrom_some {searchText pat : List Char} {i p : Nat}
    (h : indexOfFrom searchText pat i = some p) :
    i ≤ p ∧ p + pat.length ≤ searchText.length := by
  have hmem := List.mem_of_find?_eq_some h
  have hp := List.find?_some h
  have hrange := List.mem_range'_1.mp hmem
  refine ⟨hrange.1, ?_⟩
  have hpref := List.isPrefixOf_iff_prefix.mp hp
  have := hpref.length_le
  simp only [List.length_drop] at this
  omega

theorem tsxLineScanAux_sound (line searchText pat : List Char) (ww : Bool)
    (g lineIdx : Nat) :
    ∀ fuel i, ∀ m ∈ tsxLineScanAux line searchText pat ww g lineIdx fuel i,
      g + i ≤ m.start ∧ m.stop = m.start + pat.length ∧
        m.stop ≤ g + searchText.length ∧ m.line = lineIdx + 1 := by
  intro fuel
  induction fuel with
  | zero => intro i m hm; simp [tsxLineScanAux] at hm
  | succ fuel ih =>
    intro i m hm
    cases hf : indexOfFrom searchText pat i with
    | none => simp [tsxLineScanAux, hf] at hm
    | some p =>
      simp only [tsxLineScanAux, hf] at hm
      obtain ⟨hip, hbound⟩ := indexOfFrom_some hf
      split at hm
      · have := ih (p + 1) m hm
        exact ⟨by omega, this.2.1, this.2.2⟩
      · rcases List.mem_cons.mp hm with h | h
        · subst h
          dsimp only
          exact ⟨by omega, rfl, by omega, rfl⟩
        · have := ih (p + 1) m h
          exact ⟨by omega, this.2.1, this.2.2⟩

theorem tsxLineScanAux_pairwise (line searchText pat : List Char) (ww : Bool)
    (g lineIdx : Nat) :
    ∀ fuel i, (tsxLineScanAux line searchText pat ww g lineIdx fuel i).Pairwise
      (fun a b => a.start < b.start) := by
  intro fuel
  induction fuel with
  | zero => intro i; simp [tsxLineScanAux]
  | succ fuel ih =>
    intro i
    cases hf : indexOfFrom searchText pat i with
    | none => simp [tsxLineScanAux, hf]
    | some p =>
      simp only [tsxLineScanAux, hf]
      split
      · exact ih (p + 1)
      · refine List.Pairwise.cons ?_ (ih (p + 1))
        intro b hb
        have := tsxLineScanAux_sound line searchText pat ww g lineIdx fuel (p + 1) b hb
        simp only
        omega

theorem tsxScanLines_sound (findText : List Char) (cs ww : Bool)
    (lr : Option (Int × Int)) (hpat : 0 < findText.length) :
    ∀ lines lineIdx g, ∀ m ∈ tsxScanLines findText cs ww lr lines lineIdx g,
      g ≤ m.start ∧ m.start < m.stop ∧ m.stop ≤ g + (joinNl lines).length := by
  intro lines
  induction lines with
  | nil => intro lineIdx g m hm; simp [tsxScanLines] at hm
  | cons line rest ih =>
    intro lineIdx g m hm
    simp only [tsxScanLines] at hm
    rcases List.mem_append.mp hm with h | h
    · have hm' : m ∈ tsxLineScanAux line (if cs then line else mapLower line)
          (if cs then findText else mapLower findText) ww g lineIdx (line.length + 1) 0 := by
        split at h
        · simp at h
        · exact h
      have hs := tsxLineScanAux_sound line (if cs then line else mapLower line)
        (if cs then findText else mapLower findText) ww g lineIdx (line.length + 1) 0 m hm'
      have hplen : 0 < (if cs then findText else mapLower findText).length := by
        split <;> simp [mapLower, hpat]
      have hslen : (if cs then line else mapLower line).length = line.length := by
        split <;> simp [mapLower]
      have hjlen : line.length ≤ (joinNl (line :: rest)).length := by
        cases rest with
        | nil => simp [joinNl]
        | cons t ts => simp [joinNl]
      refine ⟨by omega, by omega, by omega⟩
    · have := ih (lineIdx + 1) (g + line.length + 1) m h
      have hjlen : (joinNl rest).length + line.length + 1 ≤ (joinNl (line :: rest)).length ∨ rest = [] := by
        cases rest with
        | nil => right; rfl
        | cons t ts => left; simp [joinNl]; omega
      rcases hjlen with hj | hj
      · exact ⟨by omega, this.2.1, by omega⟩
      · subst hj; simp [tsxScanLines] at h

theorem tsxScanLines_pairwise (findText : List Char) (cs ww : Bool)
    (lr : Option (Int × Int)) (hpat : 0 < findText.length) :
    ∀ lines lineIdx g, (tsxScanLines findText cs ww lr lines lineIdx g).Pairwise
      (fun a b => a.start < b.start) := by
  intro lines
  induction lines with
  | nil => intro lineIdx g; simp [tsxScanLines]
  | cons line rest ih =>
    intro lineIdx g
    simp only [tsxScanLines]
    rw [List.pairwise_append]
    refine ⟨?_, ih (lineIdx + 1) (g + line.length + 1), ?_⟩
    · split
      · simp
      · exact tsxLineScanAux_pairwise line _ _ ww g lineIdx (line.length + 1) 0
    · intro a ha b hb
      have hb' := tsxScanLines_sound findText cs ww lr hpat rest (lineIdx + 1)
        (g + line.length + 1) b hb
      have ha' : a.start < g + line.length + 1 := by
        split at ha
        · simp at ha
        · have hs := tsxLineScanAux_sound line (if cs then line else mapLower line)
            (if cs then findText else mapLower findText) ww g lineIdx (line.length + 1) 0 a ha
          have hslen : (if cs then line else mapLower line).length = line.length := by
            split <;> simp [mapLower]
          have hplen : 0 < (if cs then findText else mapLower findText).length := by
            split <;> simp [mapLower, hpat]
          omega
      omega

theorem tsxFindMatches_sound (text findText : List Char) (cs ww : Bool)
    (lr : Option (Int × Int)) (hpat : 0 < findText.length) :
    ∀ m ∈ tsxFindMatches text findText cs ww lr,
      m.start < m.stop ∧ m.stop ≤ text.length := by
  intro m hm
  simp only [tsxFindMatches] at hm
  split at hm
  · simp at hm
  · have := tsxScanLines_sound findText cs ww lr hpat (splitNl text) 0 0 m hm
    rw [joinNl_splitNl] at this
    exact ⟨this.2.1, by omega⟩

theorem tsxFindMatches_pairwise (text findText : List Char) (cs ww : Bool)
    (lr : Option (Int × Int)) (hpat : 0 < findText.length) :
    (tsxFindMatches text findText cs ww lr).Pairwise (fun a b => a.start < b.start) := by
  simp only [tsxFindMatches]
  split
  · simp
  · exact tsxScanLines_pairwise findText cs ww lr hpat (splitNl text) 0 0

theorem filterMap_eq_filter_of_gate {α β : Type} (f g : α → Option β) (p : β → Bool)
    (h : ∀ x, f x = (g x).bind (fun m => if p m then some m else none)) (l : List α) :
    l.filterMap f = (l.filterMap g).filter p := by
  induction l with
  | nil => rfl
  | cons a as ih =>
    simp only [List.filterMap_cons]
    cases hg : g a with
    | none =>
      have hfa := h a
      rw [hg] at hfa
      simp only [Option.bind] at hfa
      rw [hfa, ih]
    | some m =>
      have hfa := h a
      rw [hg] at hfa
      simp only [Option.bind] at hfa
      by_cases hp : p m = true
      · rw [hfa, if_pos hp, List.filter_cons, if_pos hp, ih]
      · rw [hfa, if_neg hp, List.filter_cons, if_neg hp, ih]

theorem enrichP1_lineRange (text : List Char) (r : Int × Int)
    (cf : Option (List Char → Bool)) (sp : Nat × Nat) :
    enrichP1 text (some r) cf sp =
      (enrichP1 text none cf sp).bind
        (fun m => if decide (r.1 ≤ (m.lineNumber : Int) ∧ (m.lineNumber : Int) ≤ r.2)
          then some m else none) := by
  simp only [enrichP1]
  cases hco : (match cf with
      | some f => f (contextP1 text sp.1 sp.2)
      | none => true) with
  | false => simp [hco]
  | true => simp [hco]

theorem scanP1Matches_lineRange (text findText : List Char) (cs ww : Bool)
    (r : Int × Int) (cf : Option (List Char → Bool)) :
    scanP1Matches text findText cs ww (some r) cf
      = (scanP1Matches text findText cs ww none cf).filter
          (fun m => decide (r.1 ≤ (m.lineNumber : Int) ∧ (m.lineNumber : Int) ≤ r.2)) := by
  simp only [scanP1Matches]
  split
  · rfl
  · exact filterMap_eq_filter_of_gate _ _ _ (enrichP1_lineRange text r cf) _

theorem tsxScanLines_lineRange (findText : List Char) (cs ww : Bool) (r : Int × Int) :
    ∀ lines lineIdx g,
      tsxScanLines findText cs ww (some r) lines lineIdx g
        = (tsxScanLines findText cs ww none lines lineIdx g).filter
            (fun m => decide (r.1 + 1 ≤ (m.line : Int) ∧ (m.line : Int) ≤ r.2 + 1)) := by
  intro lines
  induction lines with
  | nil => intro lineIdx g; rfl
  | cons line rest ih =>
    intro lineIdx g
    simp only [tsxScanLines, List.filter_append, ih (lineIdx + 1) (g + line.length + 1)]
    congr 1
    rw [if_neg Bool.false_ne_true]
    have hline : ∀ m ∈ tsxLineScanAux line (if cs then line else mapLower line)
        (if cs then findText else mapLower findText) ww g lineIdx (line.length + 1) 0,
        m.line = lineIdx + 1 := fun m hm =>
      (tsxLineScanAux_sound line _ _ ww g lineIdx (line.length + 1) 0 m hm).2.2.2
    by_cases hskip : ((lineIdx : Int) < r.1 ∨ r.2 < (lineIdx : Int))
    · have hyes : decide ((lineIdx : Int) < r.1 ∨ r.2 < (lineIdx : Int)) = true := by
        simpa using hskip
      rw [if_pos hyes]
      symm
      rw [List.filter_eq_nil_iff]
      intro m hm
      have hl := hline m hm
      simp only [hl, decide_eq_true_eq]
      rcases hskip with h | h
      · intro hc; omega
      · intro hc; omega
    · have hno : ¬ (decide ((lineIdx : Int) < r.1 ∨ r.2 < (lineIdx : Int)) = true) := by
        simpa using hskip
      rw [if_neg hno]
      symm
      rw [List.filter_eq_self]
      intro m hm
      have hl := hline m hm
      push_neg at hskip
      obtain ⟨h1, h2⟩ := hskip
      simp only [hl, decide_eq_true_eq]
      exact ⟨by omega, by omega⟩

theorem tsxFindMatches_lineRange (text findText : List Char) (cs ww : Bool)
    (r : Int × Int) :
    tsxFindMatches text findText cs ww (some r)
      = (tsxFindMatches text findText cs ww none).filter
          (fun m => decide (r.1 + 1 ≤ (m.line : Int) ∧ (m.line : Int) ≤ r.2 + 1)) := by
  simp only [tsxFindMatches]
  split
  · rfl
  · exact tsxScanLines_lineRange findText cs ww r (splitNl text) 0 0

theorem not_mem_take_drop {line : List Char} {c : Char} (h : c ∉ line) (a b : Nat) :
    c ∉ (line.take b).drop a :=
  fun hm => h (List.mem_of_mem_take (List.mem_of_mem_drop hm))

theorem replaceWithCasePreservation_eq_spec (o r : List Char) :
    replaceWithCasePreservation true o r = preserveCaseSpec o r := by
  simp only [replaceWithCasePreservation, preserveCaseSpec, Bool.not_true,
    Bool.false_eq_true, if_false]
  by_cases h1 : o = mapUpper o
  · have h1' : mapUpper o = o := h1.symm
    rw [if_pos h1, if_pos h1']
  · have h1' : ¬ mapUpper o = o := fun h => h1 h.symm
    rw [if_neg h1, if_neg h1']
    by_cases h2 : o = mapLower o
    · have h2' : mapLower o = o := h2.symm
      rw [if_pos h2, if_pos h2']
    · have h2' : ¬ mapLower o = o := fun h => h2 h.symm
      rw [if_neg h2, if_neg h2']
      cases o with
      | nil => exact absurd rfl h1
      | cons c cs =>
        dsimp only
        have hiff : ((c :: cs).take 1 = mapUpper ((c :: cs).take 1) ∧
            (c :: cs).drop 1 = mapLower ((c :: cs).drop 1))
            ↔ (c.toUpper = c ∧ mapLower cs = cs) := by
          simp only [List.take_succ_cons, List.take_zero, List.drop_succ_cons,
            List.drop_zero, mapUpper, mapLower, List.map_cons, List.map_nil,
            List.cons.injEq, and_true]
          constructor
          · rintro ⟨ha, hb⟩; exact ⟨ha.symm, hb.symm⟩
          · rintro ⟨ha, hb⟩; exact ⟨ha.symm, hb.symm⟩
        by_cases h3 : c.toUpper = c ∧ mapLower cs = cs
        · rw [if_pos (hiff.mpr h3), if_pos h3]
        · rw [if_neg (fun hh => h3 (hiff.mp hh)), if_neg h3]

theorem preserveCaseP1_mixed (o r : List Char)
    (hu : o ≠ mapUpper o) (hl : o ≠ mapLower o) :
    preserveCaseP1 true o r
      = (if o.take 1 = mapUpper (o.take 1) then capFirstLowerRest r else r) := by
  simp only [preserveCaseP1, Bool.not_true, Bool.false_eq_true, if_false,
    if_neg hu, if_neg hl]

theorem tsxApplyRule_shift (cs ww : Bool) (t : List Char) (c : Nat) (item : BatchRuleTsx) :
    tsxApplyRule cs ww (t, c) item
      = ((tsxApplyRule cs ww (t, 0) item).1, c + (tsxApplyRule cs ww (t, 0) item).2) := by
  simp only [tsxApplyRule]
  split <;> simp

theorem foldl_batchTsx_eq_spec (cs ww : Bool) :
    ∀ (rules : List BatchRuleTsx) (t : List Char) (c : Nat),
      (rules.filter (fun item => item.enabled && !item.find.isEmpty)).foldl
          (tsxApplyRule cs ww) (t, c)
        = ((batchSpecTsx cs ww t rules).1, c + (batchSpecTsx cs ww t rules).2) := by
  intro rules
  induction rules with
  | nil => intro t c; simp [batchSpecTsx]
  | cons item rs ih =>
    intro t c
    by_cases hr : (item.enabled && !item.find.isEmpty) = true
    · simp only [List.filter_cons, hr, if_true, List.foldl_cons]
      rw [tsxApplyRule_shift, ih]
      simp only [batchSpecTsx, if_pos hr]
      exact Prod.ext rfl (by dsimp only; omega)
    · simp only [List.filter_cons, hr, Bool.false_eq_true, if_false, ih]
      simp only [batchSpecTsx, if_neg hr]

theorem length_historyAfterReplaceP1 (op : OpP1) (prev : List OpP1) :
    (historyAfterReplaceP1 op prev).length ≤ 20 := by
  simp only [historyAfterReplaceP1, List.length_cons, List.length_take]
  omega

theorem length_historyAfterBatchP1 (ops prev : List OpP1) (h : ops.length ≤ 20) :
    (historyAfterBatchP1 ops prev).length ≤ 20 := by
  simp only [historyAfterBatchP1, jsSliceTo, List.length_append]
  split
  · omega
  · rename_i hpos
    simp only [List.length_take]
    omega

theorem performBatchReplaceP1_fst_indep (text blob : List Char)
    (o1 o2 : SearchOptions) :
    (performBatchReplaceP1 text blob o1).1 = (performBatchReplaceP1 text blob o2).1 := by
  simp only [performBatchReplaceP1]
  suffices h : ∀ (ls : List (List Char)) (t : List Char) (l1 l2 : List OpP1),
      (ls.foldl (fun acc line =>
        match (splitArrow line).map trim with
        | [f, r] =>
          if f.isEmpty then acc
          else
            let cnt := (litSpans acc.1 f true false).length
            (replaceAllLit acc.1 f r true false, acc.2 ++ [⟨f, r, cnt, o1⟩])
        | _ => acc) (t, l1)).1
      = (ls.foldl (fun acc line =>
        match (splitArrow line).map trim with
        | [f, r] =>
          if f.isEmpty then acc
          else
            let cnt := (litSpans acc.1 f true false).length
            (replaceAllLit acc.1 f r true false, acc.2 ++ [⟨f, r, cnt, o2⟩])
        | _ => acc) (t, l2)).1 by
    exact h _ text [] []
  intro ls
  induction ls with
  | nil => intro t l1 l2; rfl
  | cons line rest ih =>
    intro t l1 l2
    simp only [List.foldl_cons]
    rcases hp : (splitArrow line).map trim with _ | ⟨f, _ | ⟨r, _ | ⟨x, xs⟩⟩⟩
    · exact ih t l1 l2
    · exact ih t l1 l2
    · by_cases hf : f.isEmpty = true
      · simp only [if_pos hf]
        exact ih t l1 l2
      · simp only [if_neg hf]
        exact ih _ _ _
    · exact ih t l1 l2

/-- Claim C1: the replace operation applies its working match set in
descending start-offset order, so each match's recorded offsets index the
correct span: for an ascending non-overlapping in-bounds match set the
result is the simultaneous substitution of the recorded spans, and for a
single match `m` the result is
`T[0:m.start] ++ R' ++ T[m.end:]` with `R'` the (possibly
case-transformed) replacement — in both implementations. -/
theorem claim_c1_replace_descending :
    (∀ (text : List Char) (ms : List MatchP1) (replaceText : List Char) (smartCase : Bool),
      ms.Pairwise (fun a b => a.index + a.length ≤ b.index ∧ a.index < b.index) →
      (∀ m ∈ ms, m.index + m.length ≤ text.length) →
      performReplaceP1 text ms replaceText smartCase false
        = simulSpans text (ms.map (toSpanP1 smartCase replaceText))) ∧
    (∀ (text : List Char) (m : MatchP1) (replaceText : List Char) (smartCase replaceFirst : Bool),
      performReplaceP1 text [m] replaceText smartCase replaceFirst
        = text.take m.index ++ replacementP1 smartCase m replaceText
            ++ text.drop (m.index + m.length)) ∧
    (∀ (text : List Char) (ms : List MatchTsx) (replaceText : List Char) (pc : Bool),
      ms.Pairwise (fun a b => a.stop ≤ b.start ∧ a.start < b.start) →
      (∀ m ∈ ms, m.start ≤ m.stop) →
      (∀ m ∈ ms, m.stop ≤ text.length) →
      performReplaceTsx text ms replaceText pc
        = simulSpans text (ms.map (toSpanTsx pc replaceText))) ∧
    (∀ (text : List Char) (m : MatchTsx) (replaceText : List Char) (pc : Bool),
      performReplaceTsx text [m] replaceText pc
        = text.take m.start ++ replaceWithCasePreservation pc m.text replaceText
            ++ text.drop m.stop) := by
  refine ⟨performReplaceP1_eq_simulSpans, ?_, performReplaceTsx_eq_simulSpans, ?_⟩
  · intro text m replaceText smartCase replaceFirst
    cases replaceFirst <;> rfl
  · intro text m replaceText pc
    rfl

/-- Claim C1 witness: replacing both `X` matches of `aXaXa` by `Y` through
the engine yields `aYaYa`; the scan's match set satisfies the ordering
hypotheses. -/
theorem claim_c1_witness :
    performReplaceP1 "aXaXa".toList
        (scanP1Matches "aXaXa".toList "X".toList true false none none)
        "Y".toList false false = "aYaYa".toList := by
  rw [claim_c1_replace_descending.1 _ _ _ _ (by decide) (by decide)]
  decide

/-- Claim C2 (amended): in both implementations' literal branches, on a
non-empty find pattern the scan's matches are sorted strictly ascending
by start offset and satisfy `0 ≤ start < end ≤ |T|`; the P1 matches are
additionally pairwise non-overlapping, while the Tsx scan (which advances
its cursor by only one position per match) guarantees no
non-overlapping. -/
theorem claim_c2_scan_invariants :
    (∀ (text findText : List Char) (cs ww : Bool) (lr : Option (Int × Int))
        (cf : Option (List Char → Bool)), 0 < findText.length →
      (scanP1Matches text findText cs ww lr cf).Pairwise
          (fun a b => a.index + a.length ≤ b.index ∧ a.index < b.index) ∧
      (∀ m ∈ scanP1Matches text findText cs ww lr cf,
        0 < m.length ∧ m.index + m.length ≤ text.length)) ∧
    (∀ (text findText : List Char) (cs ww : Bool) (lr : Option (Int × Int)),
      0 < findText.length →
      (tsxFindMatches text findText cs ww lr).Pairwise (fun a b => a.start < b.start) ∧
      (∀ m ∈ tsxFindMatches text findText cs ww lr,
        m.start < m.stop ∧ m.stop ≤ text.length)) := by
  constructor
  · intro text findText cs ww lr cf hpat
    refine ⟨scanP1Matches_pairwise text findText cs ww lr cf hpat, ?_⟩
    intro m hm
    obtain ⟨h1, h2⟩ := scanP1Matches_sound text findText cs ww lr cf m hm
    exact ⟨by omega, by omega⟩
  · intro text findText cs ww lr hpat
    exact ⟨tsxFindMatches_pairwise text findText cs ww lr hpat,
      tsxFindMatches_sound text findText cs ww lr hpat⟩

/-- Claim C2 counterexample: scanning `aaa` for `aa` in the Tsx
implementation produces two overlapping matches, `[0,2)` and `[1,3)`,
refuting the non-overlap invariant as claimed. -/
theorem claim_c2_counterexample :
    ∃ a ∈ tsxFindMatches "aaa".toList "aa".toList false false none,
      ∃ b ∈ tsxFindMatches "aaa".toList "aa".toList false false none,
        a.start < b.start ∧ b.start < a.stop := by decide

/-- Claim C2 witness: the invariants instantiated on scanning `aXaXa` for
the non-empty pattern `X`. -/
theorem claim_c2_witness :
    0 < "X".toList.length ∧
    (scanP1Matches "aXaXa".toList "X".toList true false none none).Pairwise
      (fun a b => a.index + a.length ≤ b.index ∧ a.index < b.index) :=
  ⟨by decide,
    (claim_c2_scan_invariants.1 "aXaXa".toList "X".toList true false none none (by decide)).1⟩

/-- Claim C3: the Tsx regex scan loop has no zero-length-match guard and
never advances its cursor past a zero-length match — iterating it on the
line `abc` with the empty-matching pattern `x*` completes within no
finite number of iterations — while the P1 loop, whose guard bumps
`lastIndex` after a zero-length match, finishes within 5 iterations
yielding the four empty matches. -/
theorem claim_c3_zero_length_guard :
    (∀ fuel, tsxRegexLoopFuel "abc".toList fuel 0 = none) ∧
    p1RegexLoopFuel "abc".toList 5 0 = some [(0, 0), (1, 0), (2, 0), (3, 0)] := by
  constructor
  · intro fuel
    induction fuel with
    | zero => rfl
    | succ fuel ih =>
      have hstep : tsxRegexLoopFuel "abc".toList (fuel + 1) 0
          = match tsxRegexLoopFuel "abc".toList fuel 0 with
            | none => none
            | some rest => some ((0, 0) :: rest) := rfl
      rw [hstep, ih]
  · rfl

/-- Claim C4: the column extraction, split back on newline, has exactly
`maxRow − minRow + 1` entries, and each row's entry is exactly the
clipped slice described by the specification. -/
theorem claim_c4_extract_rows (text : List Char) (minRow maxRow minCol maxCol : Nat)
    (hr : minRow ≤ maxRow) (hc : minCol ≤ maxCol) :
    splitNl (extractColumns text minRow maxRow minCol maxCol)
      = (List.range (maxRow - minRow + 1)).map
          (fun i => rowEntrySpec text minCol maxCol (minRow + i)) ∧
    (splitNl (extractColumns text minRow maxRow minCol maxCol)).length
      = maxRow - minRow + 1 := by
  have hn : maxRow + 1 - minRow = maxRow - minRow + 1 := by omega
  have hsplit : splitNl (extractColumns text minRow maxRow minCol maxCol)
      = (List.range (maxRow + 1 - minRow)).map (fun i =>
          let r := minRow + i
          let lines := splitNl text
          if r < lines.length then
            let line := lines.getD r []
            let startCol := min minCol line.length
            let endCol := min (maxCol + 1) line.length
            if startCol < endCol then (line.take endCol).drop startCol else []
          else []) := by
    simp only [extractColumns]
    apply splitNl_joinNl
    · simp [hn]
    · intro s hs
      obtain ⟨i, hi, rfl⟩ := List.mem_map.mp hs
      split
      · split
        · rename_i h1 h2
          apply not_mem_take_drop
          apply not_mem_of_mem_splitNl
          rw [List.getD_eq_getElem (splitNl text) [] h1]
          exact List.getElem_mem h1
        · simp
      · simp
  rw [hsplit, hn]
  constructor
  · apply List.map_congr_left
    intro i hi
    simp only [rowEntrySpec]
    by_cases h1 : minRow + i < (splitNl text).length
    · have h1' : ¬ ((splitNl text).length ≤ minRow + i) := by omega
      rw [if_pos h1, if_neg h1']
      set L := (splitNl text).getD (minRow + i) [] with hL
      by_cases h2 : min minCol L.length < min (maxCol + 1) L.length
      · have h2' : ¬ (min (maxCol + 1) L.length ≤ min minCol L.length) := by omega
        rw [if_pos h2, if_neg h2']
      · have h2' : min (maxCol + 1) L.length ≤ min minCol L.length := by omega
        rw [if_neg h2, if_pos h2']
    · have h1' : (splitNl text).length ≤ minRow + i := by omega
      rw [if_neg h1, if_pos h1']
  · simp

/-- Claim C4 witness: extracting rows 0-3, columns 0-1 of the two-line
text `ab\ncd` yields exactly 4 output lines. -/
theorem claim_c4_witness :
    (splitNl (extractColumns "ab\ncd".toList 0 3 0 1)).length = 3 - 0 + 1 :=
  (claim_c4_extract_rows "ab\ncd".toList 0 3 0 1 (by decide) (by decide)).2

/-- Claim C5 (amended): the Tsx case transformation follows the claimed
four cases exactly; the P1 transformation agrees on all-upper and
all-lower originals but, on a mixed-case original, tests only the first
character — capitalizing the replacement whenever the original's first
character is uppercase-invariant and using it verbatim only otherwise. -/
theorem claim_c5_case_transformation :
    (∀ original replacement : List Char,
      replaceWithCasePreservation true original replacement
        = preserveCaseSpec original replacement) ∧
    (∀ original replacement : List Char,
      original ≠ mapUpper original → original ≠ mapLower original →
      preserveCaseP1 true original replacement
        = (if original.take 1 = mapUpper (original.take 1)
            then capFirstLowerRest replacement else replacement)) :=
  ⟨replaceWithCasePreservation_eq_spec, preserveCaseP1_mixed⟩

/-- Claim C5 counterexample: on the mixed-case original `HeLLo` the claim
demands the replacement verbatim, but P1 yields the capitalized
replacement: `preserveCase("HeLLo", "world") = "World" ≠ "world"`. -/
theorem claim_c5_counterexample :
    preserveCaseP1 true "HeLLo".toList "world".toList = "World".toList ∧
    "World".toList ≠ "world".toList := by decide

/-- Claim C5 witness: the amended P1 branch rule instantiated on the
mixed-case original `HeLLo` with replacement `world`. -/
theorem claim_c5_witness :
    "HeLLo".toList ≠ mapUpper "HeLLo".toList ∧
    preserveCaseP1 true "HeLLo".toList "world".toList
      = (if ("HeLLo".toList).take 1 = mapUpper (("HeLLo".toList).take 1)
          then capFirstLowerRest "world".toList else "world".toList) :=
  ⟨by decide, claim_c5_case_transformation.2 _ _ (by decide) (by decide)⟩

/-- Claim C6: batch replacement composes sequentially — the Tsx batch
equals the specification's recursion (rules in list order, each enabled
non-empty rule a fresh replace-all pass on the previous rule's output,
disabled and empty-find rules skipped, total = sum of per-rule counts) —
and the rules `a→b, b→c` applied to `a` yield `c`. -/
theorem claim_c6_batch_sequential :
    (∀ (text : List Char) (rules : List BatchRuleTsx) (cs ww : Bool),
      performBatchReplaceTsx text rules cs ww = batchSpecTsx cs ww text rules) ∧
    (performBatchReplaceTsx "a".toList
        [⟨"a".toList, "b".toList, true⟩, ⟨"b".toList, "c".toList, true⟩] false false).1
      = "c".toList := by
  constructor
  · intro text rules cs ww
    simp only [performBatchReplaceTsx]
    rw [foldl_batchTsx_eq_spec cs ww rules text 0]
    simp
  · decide

/-- Claim C7 (amended): a single replace keeps the newest 20 entries
(newest first, oldest evicted); a batch prepends its per-rule operations
and keeps only `20 − n` previous entries, so the log stays within 20
after every sequence of events in which each batch contributes at most 20
operations — a larger batch overflows the bound. -/
theorem claim_c7_history_bounded (events : List HistEvent) (init : List OpP1)
    (hinit : init.length ≤ 20)
    (hev : ∀ e ∈ events, histEventSize e ≤ 20) :
    (events.foldl applyHistEvent init).length ≤ 20 := by
  induction events generalizing init with
  | nil => simpa
  | cons e es ih =>
    simp only [List.foldl_cons]
    apply ih
    · cases e with
      | single op => exact length_historyAfterReplaceP1 op init
      | batch ops =>
        exact length_historyAfterBatchP1 ops init
          (by simpa [histEventSize] using hev (HistEvent.batch ops) (by simp))
    · intro e' he'
      exact hev e' (by simp [he'])

/-- Claim C7 counterexample: one batch of 21 parsed `a->b` rules applied
from an empty history leaves 21 entries in the operation log, exceeding
the claimed 20-entry bound. -/
theorem claim_c7_counterexample :
    ¬ ((applyHistEvent [] (HistEvent.batch
        (performBatchReplaceP1 "a".toList blob21 {}).2)).length ≤ 20) := by decide

/-- Claim C7 witness: a single replace event from an empty history keeps
the log within 20 entries. -/
theorem claim_c7_witness :
    (([] : List OpP1).length ≤ 20) ∧
    (([HistEvent.single ⟨"a".toList, "b".toList, 1, {}⟩].foldl
        applyHistEvent []).length ≤ 20) :=
  ⟨by decide, claim_c7_history_bounded _ _ (by decide) (by decide)⟩

/-- Claim C8 (amended): with a `lineRange` set, the P1 scan keeps exactly
the matches whose 1-indexed line number lies in `[start, end]`, leaving
all other matches and their offsets untouched; the Tsx scan compares the
0-indexed line index against the bounds, keeping exactly the matches
whose 1-indexed line number lies in `[start+1, end+1]`. -/
theorem claim_c8_line_range :
    (∀ (text findText : List Char) (cs ww : Bool) (r : Int × Int)
        (cf : Option (List Char → Bool)),
      scanP1Matches text findText cs ww (some r) cf
        = (scanP1Matches text findText cs ww none cf).filter
            (fun m => decide (r.1 ≤ (m.lineNumber : Int) ∧ (m.lineNumber : Int) ≤ r.2))) ∧
    (∀ (text findText : List Char) (cs ww : Bool) (r : Int × Int),
      tsxFindMatches text findText cs ww (some r)
        = (tsxFindMatches text findText cs ww none).filter
            (fun m => decide (r.1 + 1 ≤ (m.line : Int) ∧ (m.line : Int) ≤ r.2 + 1))) :=
  ⟨fun text findText cs ww r cf => scanP1Matches_lineRange text findText cs ww r cf,
   fun text findText cs ww r => tsxFindMatches_lineRange text findText cs ww r⟩

/-- Claim C8 counterexample: scanning `a\na` for `a` with
`lineRange = {start := 1, end := 1}` in the Tsx implementation keeps only
the match on 1-indexed line 2 and drops the line-1 match, though the
claim requires exactly the matches on line 1. -/
theorem claim_c8_counterexample :
    (tsxFindMatches "a\na".toList "a".toList false false (some (1, 1))).map
        (fun m => m.line) = [2] ∧ ¬ ((2 : Nat) ≤ 1) := by decide

/-- Claim C9: the grid mapper computes the clamped floor coordinates and
returns null exactly when the computed row is at or past the number of
lines (every buffer has at least one line under split semantics), and any
returned position has non-negative coordinates with its row indexing an
existing line. -/
theorem claim_c9_grid_mapping (text : List Char)
    (clientX rectLeft paddingLeft scrollLeft
     clientY rectTop paddingTop scrollTop charWidth lineHeight : ℚ)
    (hcw : 0 < charWidth) (hlh : 0 < lineHeight) :
    (getPositionP0 text clientX rectLeft paddingLeft scrollLeft
        clientY rectTop paddingTop scrollTop charWidth lineHeight = none
      ↔ ((splitNl text).length : Int)
          ≤ max 0 ⌊(clientY - rectTop - paddingTop + scrollTop) / lineHeight⌋) ∧
    (∀ p, getPositionP0 text clientX rectLeft paddingLeft scrollLeft
        clientY rectTop paddingTop scrollTop charWidth lineHeight = some p →
      p.row = (max 0 ⌊(clientY - rectTop - paddingTop + scrollTop) / lineHeight⌋).toNat ∧
      p.col = (max 0 ⌊(clientX - rectLeft - paddingLeft + scrollLeft) / charWidth⌋).toNat ∧
      p.row < (splitNl text).length) := by
  have hpos := length_splitNl_pos text
  simp only [getPositionP0]
  constructor
  · constructor
    · intro h
      by_contra hc
      rw [if_neg (fun hh => hc hh.1)] at h
      exact Option.some_ne_none _ h
    · intro h
      rw [if_pos ⟨h, by exact_mod_cast hpos⟩]
  · intro p hp
    split at hp
    · exact absurd hp (Option.noConfusion)
    · rename_i hcond
      have hrow : ¬ (((splitNl text).length : Int)
          ≤ max 0 ⌊(clientY - rectTop - paddingTop + scrollTop) / lineHeight⌋) :=
        fun hh => hcond ⟨hh, by exact_mod_cast hpos⟩
      have hp' := Option.some_inj.mp hp
      subst hp'
      refine ⟨rfl, rfl, ?_⟩
      dsimp only
      push_neg at hrow
      omega

/-- Claim C9 witness: a pointer two character-widths right of the content
origin of `ab\ncd` maps to row 0, column 2 — an existing line. -/
theorem claim_c9_witness :
    (0 : ℚ) < 5 ∧
    (∀ p, getPositionP0 "ab\ncd".toList 10 0 0 0 0 0 0 0 5 10 = some p →
      p.row = (max 0 ⌊((0 : ℚ) - 0 - 0 + 0) / 10⌋).toNat ∧
      p.col = (max 0 ⌊((10 : ℚ) - 0 - 0 + 0) / 5⌋).toNat ∧
      p.row < (splitNl "ab\ncd".toList).length) :=
  ⟨by norm_num,
    (claim_c9_grid_mapping "ab\ncd".toList 10 0 0 0 0 0 0 0 5 10
      (by norm_num) (by norm_num)).2⟩

/-- Claim C10: the P1 batch engine escapes every find string and compiles
it with only the global flag, so the resulting text is identical under
any two option records — the `caseSensitive`, `useRegex`, `wholeWord` and
`smartCase` flags have no influence on the batch output. -/
theorem claim_c10_batch_noninterference (text blob : List Char)
    (o1 o2 : SearchOptions) :
    (performBatchReplaceP1 text blob o1).1 = (performBatchReplaceP1 text blob o2).1 :=
  performBatchReplaceP1_fst_indep text blob o1 o2

end VerticalSelect
